import Mathlib

/-!
Verification of the Kallisto EM implementation.

A shallow embedding of `kallisto_em.py` (functions `e_step`, `m_step`,
`run_em_algorithm`) over exact rationals.  Matrices are lists of rows,
vectors are lists; the numpy value semantics (broadcasting a vector over
the rows, column sums, safe division with a zero fallback) is translated
operation by operation.
-/

namespace KallistoEM

/-- An abundance (or posterior-count) vector: one rational per transcript. -/
abbrev Vec := List ℚ

/-- A matrix, stored as the list of its rows (transcripts × reads). -/
abbrev Mat := List (List ℚ)

/-- Every row of `A` has length `R` (the numpy arrays are rectangular). -/
def Rectangular (A : Mat) (R : ℕ) : Prop := ∀ row ∈ A, row.length = R

/-- Every entry of the matrix is non-negative. -/
def MatNonneg (A : Mat) : Prop := ∀ row ∈ A, ∀ x ∈ row, 0 ≤ x

/-- Every entry of the vector is non-negative. -/
def VecNonneg (v : Vec) : Prop := ∀ x ∈ v, 0 ≤ x

instance (A : Mat) (R : ℕ) : Decidable (Rectangular A R) := by
  unfold Rectangular; infer_instance

instance (A : Mat) : Decidable (MatNonneg A) := by
  unfold MatNonneg; infer_instance

instance (v : Vec) : Decidable (VecNonneg v) := by
  unfold VecNonneg; infer_instance

/-- The intermediate `weighted = A * pi[:, None]` from `e_step`: row `t` of the assignment
matrix scaled by the abundance `pi[t]`. -/
def weightedM (pi : Vec) (A : Mat) : Mat :=
  (A.zip pi).map (fun p => p.1.map (fun a => a * p.2))

/-- Column sum `M.sum(axis=0)` at index `r`: the sum over the rows of the entry at
index `r` (missing entries of a short row count as `0`; the numpy input is
rectangular, where this never happens). -/
def colSum (M : Mat) (r : ℕ) : ℚ :=
  (M.map (fun row => row.getD r 0)).sum

/-- Function `e_step(transcript_abundance_vector, assignment_matrix)` from
`kallisto_em.py`: `weighted = A * pi[:, None]`,
`col_sums = weighted.sum(axis=0)`, and
`posterior = np.divide(weighted, col_sums, out=np.zeros_like(weighted),
where=col_sums != 0)` — entry `[t, r]` is `weighted[t, r] / col_sums[r]`
when `col_sums[r] ≠ 0` and `0` otherwise. -/
def e_step (transcript_abundance_vector : Vec) (assignment_matrix : Mat) : Mat :=
  let weighted := weightedM transcript_abundance_vector assignment_matrix
  let R := (assignment_matrix.headD []).length
  weighted.map (fun row =>
    (List.range R).map (fun r =>
      let s := colSum weighted r
      if s = 0 then 0 else row.getD r 0 / s))

/-- Function `m_step(posterior, assignment_matrix)` from `kallisto_em.py`:
`expected_counts = posterior.sum(axis=1)`, `total = expected_counts.sum()`;
if `total > 0` return `expected_counts / total`, else return
`np.full(T, 1.0 / T)` with `T = expected_counts.shape[0]`.  The
`assignment_matrix` parameter is accepted and ignored, as in the source. -/
def m_step (posterior : Mat) (assignment_matrix : Mat) : Vec :=
  let expected_counts := posterior.map List.sum
  let total := expected_counts.sum
  if 0 < total then
    expected_counts.map (fun c => c / total)
  else
    List.replicate posterior.length ((1 : ℚ) / (posterior.length : ℚ))

/-- One EM iteration: the loop body of `run_em_algorithm`
(`posterior = e_step(alpha, A); updated = m_step(posterior, A)`). -/
def em_update (alpha : Vec) (assignment_matrix : Mat) : Vec :=
  m_step (e_step alpha assignment_matrix) assignment_matrix

/-- The convergence statistic `np.max(np.abs(updated - alpha))` of
`run_em_algorithm` (both vectors have the same length `T ≥ 1` whenever the
source computes it; the fold's base `0` is then absorbed by the
non-negative entries). -/
def maxAbsDiff (updated alpha : Vec) : ℚ :=
  ((updated.zip alpha).map (fun p => |p.1 - p.2|)).foldr max 0

/-- The `for iteration in range(max_iters)` loop of `run_em_algorithm`:
`done` counts completed iterations, `fuel` the remaining ones
(`done + fuel = max_iters` throughout).  Convergence returns
`(updated, iteration + 1)`; running out of fuel returns
`(alpha, max_iters)` as in the source's post-loop `return`. -/
def run_em_loop (A : Mat) (tol : ℚ) : Vec → ℕ → ℕ → Vec × ℕ
  | alpha, done, 0 => (alpha, done)
  | alpha, done, fuel + 1 =>
    let updated := em_update alpha A
    if maxAbsDiff updated alpha < tol then (updated, done + 1)
    else run_em_loop A tol updated (done + 1) fuel

/-- The initialization of `run_em_algorithm`: the uniform vector
`np.full(T, 1.0 / T)` when no initial abundance is supplied, otherwise the
caller's vector (used as-is, no renormalization). -/
def init_abundance (assignment_matrix : Mat) : Option Vec → Vec
  | none => List.replicate assignment_matrix.length
      ((1 : ℚ) / (assignment_matrix.length : ℚ))
  | some v => v

/-- Function `run_em_algorithm(assignment_matrix, initial_abundance, tol,
max_iters)` from `kallisto_em.py`: initialize, then iterate `e_step`/`m_step` until
`np.max(np.abs(updated - alpha)) < tol` or the iteration budget runs out. -/
def run_em_algorithm (assignment_matrix : Mat) (initial_abundance : Option Vec)
    (tol : ℚ) (max_iters : ℕ) : Vec × ℕ :=
  run_em_loop assignment_matrix tol (init_abundance assignment_matrix initial_abundance)
    0 max_iters

/-! ## Exception-aware model of the Python failure behaviour (C1, C7)

`run_em_algorithm` performs no input validation.  The only failures the
Python code can raise are: a `ZeroDivisionError` from `1.0 / n_transcripts`
during initialization when the matrix has no rows; a numpy broadcasting
`ValueError` from `A * pi[:, None]` or `updated - alpha` on incompatible
lengths; a `ZeroDivisionError` from `1.0 / T` in `m_step` when the
posterior has no rows; and a `ValueError` from `np.max` on an empty array.
Each failure point is modelled as an `Except.error` carrying the Python
exception; numpy broadcasting of a length-1 operand is modelled by
replicating it. -/

def e_step_exc (pi : Vec) (A : Mat) : Except String Mat :=
  if pi.length = A.length then .ok (e_step pi A)
  else if pi.length = 1 then .ok (e_step (List.replicate A.length (pi.getD 0 0)) A)
  else if A.length = 1 then .ok (e_step pi (List.replicate pi.length (A.getD 0 [])))
  else .error "ValueError: operands could not be broadcast together"

def m_step_exc (posterior A : Mat) : Except String Vec :=
  if 0 < (posterior.map List.sum).sum then .ok (m_step posterior A)
  else if posterior.length = 0 then .error "ZeroDivisionError: float division by zero"
  else .ok (m_step posterior A)

def sub_exc (updated alpha : Vec) : Except String Vec :=
  if updated.length = alpha.length then
    .ok ((updated.zip alpha).map (fun p => p.1 - p.2))
  else if alpha.length = 1 then .ok (updated.map (fun x => x - alpha.getD 0 0))
  else if updated.length = 1 then .ok (alpha.map (fun y => updated.getD 0 0 - y))
  else .error "ValueError: operands could not be broadcast together"

def max_abs_exc (d : Vec) : Except String ℚ :=
  if d.length = 0 then
    .error "ValueError: zero-size array to reduction operation maximum"
  else .ok ((d.map (fun x => |x|)).foldr max 0)

def run_em_loop_exc (A : Mat) (tol : ℚ) : Vec → ℕ → ℕ → Except String (Vec × ℕ)
  | alpha, done, 0 => .ok (alpha, done)
  | alpha, done, fuel + 1 => do
    let posterior ← e_step_exc alpha A
    let updated ← m_step_exc posterior A
    let d ← sub_exc updated alpha
    let m ← max_abs_exc d
    if m < tol then .ok (updated, done + 1)
    else run_em_loop_exc A tol updated (done + 1) fuel

def run_em_algorithm_exc (A : Mat) (initial_abundance : Option Vec) (tol : ℚ)
    (max_iters : ℕ) : Except String (Vec × ℕ) :=
  match initial_abundance with
  | none =>
    if A.length = 0 then .error "ZeroDivisionError: float division by zero"
    else run_em_loop_exc A tol
      (List.replicate A.length ((1 : ℚ) / (A.length : ℚ))) 0 max_iters
  | some v => run_em_loop_exc A tol v 0 max_iters

/-! ## Heap model for the frame property (C10)

Numpy arrays live at locations in a heap; every numpy operation performed
by the source allocates a fresh array (`np.asarray(..., dtype=float)` is
modelled conservatively as a fresh array; `np.divide(..., out=
np.zeros_like(weighted))` writes into the freshly created zero array;
`alpha = np.asarray(initial_abundance, dtype=float).copy()` copies the
caller-supplied vector; `alpha = updated` rebinds a name).  No operation
ever writes to a pre-existing location, which is exactly the frame
property claimed. -/

inductive PyVal
  | vec (v : Vec)
  | mat (m : Mat)
deriving DecidableEq

structure Heap where
  store : List (ℕ × PyVal)
  next : ℕ
deriving DecidableEq

def Heap.read (h : Heap) (l : ℕ) : Option PyVal :=
  (h.store.find? (fun p => p.1 = l)).map (fun p => p.2)

def Heap.alloc (h : Heap) (v : PyVal) : Heap × ℕ :=
  (⟨(h.next, v) :: h.store, h.next + 1⟩, h.next)

/-- Heap `h'` is the result of only allocating on top of `h`: every location
already present in `h` reads the same value. -/
def Heap.Grows (h' h : Heap) : Prop :=
  h.next ≤ h'.next ∧ ∀ l, l < h.next → h'.read l = h.read l

/-- Heap-level `e_step`: look up the abundance vector and the assignment
matrix, run the numpy pipeline, allocate each intermediate and the result;
return the location of the posterior. -/
def e_step_heap (h : Heap) (l_pi l_A : ℕ) : Heap × Option ℕ :=
  match h.read l_pi, h.read l_A with
  | some (.vec pi), some (.mat A) =>
    let h1 := (h.alloc (.mat A)).1
    let h2 := (h1.alloc (.vec pi)).1
    let h3 := (h2.alloc (.mat (weightedM pi A))).1
    let h4 := (h3.alloc (.vec ((List.range (A.headD []).length).map
        (fun r => colSum (weightedM pi A) r)))).1
    ((h4.alloc (.mat (e_step pi A))).1, some (h4.alloc (.mat (e_step pi A))).2)
  | _, _ => (h, none)

/-- Heap-level `m_step`: look up the posterior (and the unused assignment
matrix), allocate the row-sum vector and the result. -/
def m_step_heap (h : Heap) (l_post l_A : ℕ) : Heap × Option ℕ :=
  match h.read l_post, h.read l_A with
  | some (.mat P), some (.mat A) =>
    let h1 := (h.alloc (.vec (P.map List.sum))).1
    ((h1.alloc (.vec (m_step P A))).1, some (h1.alloc (.vec (m_step P A))).2)
  | _, _ => (h, none)

/-- Heap-level EM loop: one iteration calls `e_step_heap`, `m_step_heap`,
allocates `updated - alpha` and `np.abs(...)`, takes the max (a scalar,
not heap-allocated) and either returns the location of `updated` or
rebinds `alpha` to it and continues.  Degenerate lookups (unreachable from
a well-formed caller) stop and return the current heap. -/
def run_em_loop_heap (l_A : ℕ) (tol : ℚ) : Heap → ℕ → ℕ → ℕ → Heap × ℕ × ℕ
  | h, l_alpha, done, 0 => (h, l_alpha, done)
  | h, l_alpha, done, fuel + 1 =>
    match e_step_heap h l_alpha l_A with
    | (h1, some l_post) =>
      match m_step_heap h1 l_post l_A with
      | (h2, some l_upd) =>
        match h2.read l_upd, h2.read l_alpha with
        | some (.vec updated), some (.vec alpha) =>
          let h3 := (h2.alloc (.vec ((updated.zip alpha).map (fun p => p.1 - p.2)))).1
          let h4 := (h3.alloc (.vec ((updated.zip alpha).map (fun p => |p.1 - p.2|)))).1
          if maxAbsDiff updated alpha < tol then (h4, l_upd, done + 1)
          else run_em_loop_heap l_A tol h4 l_upd (done + 1) fuel
        | _, _ => (h2, l_upd, done)
      | (h2, none) => (h2, l_post, done)
    | (h1, none) => (h1, l_alpha, done)

/-- Heap-level `run_em_algorithm`: build the initial abundance (a fresh
uniform vector, or a fresh `.copy()` of the caller-supplied vector), then
run the loop. -/
def run_em_algorithm_heap (h : Heap) (l_A : ℕ) (l_init : Option ℕ) (tol : ℚ)
    (max_iters : ℕ) : Heap × ℕ × ℕ :=
  match l_init with
  | none =>
    match h.read l_A with
    | some (.mat A) =>
      let h1 := (h.alloc (.vec (List.replicate A.length ((1 : ℚ) / (A.length : ℚ))))).1
      let l_alpha := (h.alloc (.vec (List.replicate A.length ((1 : ℚ) / (A.length : ℚ))))).2
      run_em_loop_heap l_A tol h1 l_alpha 0 max_iters
    | _ => (h, 0, 0)
  | some l0 =>
    match h.read l0 with
    | some (.vec v) =>
      let h1 := (h.alloc (.vec v)).1
      let l_alpha := (h.alloc (.vec v)).2
      run_em_loop_heap l_A tol h1 l_alpha 0 max_iters
    | _ => (h, 0, 0)

/-- Unfolding equation for `run_em_loop` usable on numeral fuel. -/
theorem run_em_loop_eq (A : Mat) (tol : ℚ) (alpha : Vec) (done fuel : ℕ) :
    run_em_loop A tol alpha done fuel =
      if fuel = 0 then (alpha, done)
      else
        let updated := em_update alpha A
        if maxAbsDiff updated alpha < tol then (updated, done + 1)
        else run_em_loop A tol updated (done + 1) (fuel - 1) := by
  cases fuel <;> simp [run_em_loop]

/-! ## Basic shape and entry lemmas -/

theorem maxAbsDiff_self (v : Vec) : maxAbsDiff v v = 0 := by
  induction v with
  | nil => rfl
  | cons a v ih =>
    simp only [maxAbsDiff, List.zip_cons_cons, List.map_cons, List.foldr_cons, sub_self,
      abs_zero] at ih ⊢
    simp [ih]

theorem weightedM_length (pi : Vec) (A : Mat) :
    (weightedM pi A).length = min A.length pi.length := by
  simp [weightedM]

theorem e_step_length (pi : Vec) (A : Mat) :
    (e_step pi A).length = min A.length pi.length := by
  simp [e_step, weightedM]

theorem m_step_length (P A : Mat) : (m_step P A).length = P.length := by
  by_cases h : 0 < (P.map List.sum).sum <;> simp [m_step, h]

theorem em_update_length (A : Mat) (alpha : Vec) (h : alpha.length = A.length) :
    (em_update alpha A).length = A.length := by
  simp [em_update, m_step_length, e_step_length, h]

theorem getD_nonneg (row : Vec) (r : ℕ) (h : ∀ x ∈ row, 0 ≤ x) : 0 ≤ row.getD r 0 := by
  by_cases hr : r < row.length
  · rw [List.getD_eq_getElem _ _ hr]
    exact h _ (List.getElem_mem hr)
  · rw [List.getD_eq_default _ _ (by omega)]

theorem range_map_getD (R : ℕ) (f : ℕ → ℚ) (r : ℕ) (hr : r < R) :
    ((List.range R).map f).getD r 0 = f r := by
  rw [List.getD_eq_getElem _ _ (by simpa using hr)]
  simp

theorem weightedM_getD (pi : Vec) (A : Mat) (t : ℕ) (ht : t < A.length)
    (ht' : t < pi.length) :
    (weightedM pi A).getD t [] = A[t].map (fun a => a * pi[t]) := by
  rw [List.getD_eq_getElem _ _ (by simp [weightedM_length]; omega)]
  simp [weightedM]

theorem e_step_getD (pi : Vec) (A : Mat) (t : ℕ) (ht : t < A.length)
    (ht' : t < pi.length) :
    (e_step pi A).getD t [] =
      (List.range (A.headD []).length).map (fun r =>
        let s := colSum (weightedM pi A) r
        if s = 0 then 0 else ((weightedM pi A).getD t []).getD r 0 / s) := by
  have hw : t < (weightedM pi A).length := by simp [weightedM_length]; omega
  rw [List.getD_eq_getElem _ _ (by simp [e_step_length]; omega)]
  simp only [e_step, List.getElem_map]
  congr 1
  rw [List.getD_eq_getElem _ _ hw]

theorem e_step_entry (pi : Vec) (A : Mat) (t r : ℕ) (ht : t < A.length)
    (ht' : t < pi.length) (hr : r < (A.headD []).length) :
    ((e_step pi A).getD t []).getD r 0 =
      if colSum (weightedM pi A) r = 0 then 0
      else ((weightedM pi A).getD t []).getD r 0 / colSum (weightedM pi A) r := by
  rw [e_step_getD pi A t ht ht', range_map_getD _ _ _ hr]

/-! ## Column lemmas for the E-step (C2) -/

theorem e_step_col_eq (pi : Vec) (A : Mat) (r : ℕ) (hr : r < (A.headD []).length) :
    (e_step pi A).map (fun row => row.getD r 0) =
      (weightedM pi A).map (fun row =>
        if colSum (weightedM pi A) r = 0 then 0
        else row.getD r 0 / colSum (weightedM pi A) r) := by
  simp only [e_step, List.map_map]
  refine List.map_congr_left (fun row _ => ?_)
  simp only [Function.comp]
  rw [range_map_getD _ _ _ hr]

theorem colSum_e_step (pi : Vec) (A : Mat) (r : ℕ) (hr : r < (A.headD []).length) :
    colSum (e_step pi A) r =
      if colSum (weightedM pi A) r = 0 then 0 else 1 := by
  rw [colSum, e_step_col_eq pi A r hr]
  by_cases hs : colSum (weightedM pi A) r = 0
  · simp [hs]
  · rw [if_neg hs]
    have h1 : ((weightedM pi A).map (fun row =>
        if colSum (weightedM pi A) r = 0 then 0
        else row.getD r 0 / colSum (weightedM pi A) r)) =
        (weightedM pi A).map (fun row =>
          (fun row' : List ℚ => row'.getD r 0) row * (colSum (weightedM pi A) r)⁻¹) := by
      refine List.map_congr_left (fun row _ => ?_)
      rw [if_neg hs, div_eq_mul_inv]
    rw [h1, List.sum_map_mul_right]
    rw [show ((weightedM pi A).map (fun row' : List ℚ => row'.getD r 0)).sum =
      colSum (weightedM pi A) r from rfl]
    exact mul_inv_cancel₀ hs

theorem e_step_col_zero (pi : Vec) (A : Mat) (r : ℕ)
    (hs : colSum (weightedM pi A) r = 0) :
    ∀ row ∈ e_step pi A, row.getD r 0 = 0 := by
  intro row hrow
  simp only [e_step, List.mem_map] at hrow
  obtain ⟨wrow, _, rfl⟩ := hrow
  by_cases hr : r < (A.headD []).length
  · rw [range_map_getD _ _ _ hr]
    simp [hs]
  · rw [List.getD_eq_default]
    simp only [List.length_map, List.length_range]
    omega

/-! ## Non-negativity lemmas -/

theorem weightedM_nonneg (pi : Vec) (A : Mat) (hA : MatNonneg A) (hpi : VecNonneg pi) :
    MatNonneg (weightedM pi A) := by
  intro row hrow x hx
  simp only [weightedM, List.mem_map] at hrow
  obtain ⟨p, hp, rfl⟩ := hrow
  obtain ⟨hp1, hp2⟩ := List.of_mem_zip hp
  simp only [List.mem_map] at hx
  obtain ⟨a, ha, rfl⟩ := hx
  exact mul_nonneg (hA _ hp1 _ ha) (hpi _ hp2)

theorem colSum_nonneg (M : Mat) (r : ℕ) (hM : MatNonneg M) : 0 ≤ colSum M r := by
  refine List.sum_nonneg (fun x hx => ?_)
  simp only [List.mem_map] at hx
  obtain ⟨row, hrow, rfl⟩ := hx
  exact getD_nonneg _ _ (hM _ hrow)

theorem e_step_nonneg (pi : Vec) (A : Mat) (hA : MatNonneg A) (hpi : VecNonneg pi) :
    MatNonneg (e_step pi A) := by
  intro row hrow x hx
  simp only [e_step, List.mem_map] at hrow
  obtain ⟨wrow, hwrow, rfl⟩ := hrow
  simp only [List.mem_map] at hx
  obtain ⟨r, _, rfl⟩ := hx
  by_cases hs : colSum (weightedM pi A) r = 0
  · simp [hs]
  · simp only [hs, if_neg, ite_false]
    have hw := weightedM_nonneg pi A hA hpi
    refine div_nonneg (getD_nonneg _ _ (hw _ hwrow)) ?_
    exact colSum_nonneg _ _ hw

theorem m_step_nonneg (P A : Mat) (hP : MatNonneg P) : VecNonneg (m_step P A) := by
  intro x hx
  simp only [m_step] at hx
  split at hx
  next h =>
    simp only [List.mem_map] at hx
    obtain ⟨c, hc, rfl⟩ := hx
    obtain ⟨row, hrow, rfl⟩ := hc
    exact div_nonneg (List.sum_nonneg (hP _ hrow)) h.le
  next h =>
    simp only [List.mem_replicate] at hx
    rw [hx.2]
    positivity

/-! ## Sum lemmas for the M-step (C3) -/

theorem m_step_sum (P A : Mat) (hP : P ≠ []) : (m_step P A).sum = 1 := by
  by_cases h : 0 < (P.map List.sum).sum
  · simp only [m_step, h, if_pos]
    have h1 : (P.map List.sum).map (fun c => c / (P.map List.sum).sum) =
        (P.map List.sum).map (fun c =>
          (fun c' : ℚ => c') c * ((P.map List.sum).sum)⁻¹) := by
      refine List.map_congr_left (fun c _ => ?_)
      rw [div_eq_mul_inv]
    rw [h1, List.sum_map_mul_right, List.map_id']
    exact mul_inv_cancel₀ (ne_of_gt h)
  · simp only [m_step, h, if_neg, ite_false]
    rw [List.sum_replicate, nsmul_eq_mul]
    have hT : (P.length : ℚ) ≠ 0 :=
      Nat.cast_ne_zero.mpr (List.length_pos.mpr hP).ne'
    field_simp

/-! ## Identical transcripts stay identical through one EM iteration (C5) -/

theorem m_step_pair (P A' : Mat) (i j : ℕ) (hi : i < P.length) (hj : j < P.length)
    (h : P.getD i [] = P.getD j []) :
    (m_step P A').getD i 0 = (m_step P A').getD j 0 := by
  have hi' : i < (m_step P A').length := by rw [m_step_length]; exact hi
  have hj' : j < (m_step P A').length := by rw [m_step_length]; exact hj
  rw [List.getD_eq_getElem _ _ hi', List.getD_eq_getElem _ _ hj']
  rw [List.getD_eq_getElem _ _ hi, List.getD_eq_getElem _ _ hj] at h
  simp only [m_step]
  split
  · simp only [List.getElem_map, h]
  · simp only [List.getElem_replicate]

theorem weightedM_pair (pi : Vec) (A : Mat) (i j : ℕ) (hi : i < A.length)
    (hj : j < A.length) (hlen : pi.length = A.length)
    (hrow : A.getD i [] = A.getD j []) (hpi : pi.getD i 0 = pi.getD j 0) :
    (weightedM pi A).getD i [] = (weightedM pi A).getD j [] := by
  rw [weightedM_getD pi A i hi (by omega), weightedM_getD pi A j hj (by omega)]
  rw [List.getD_eq_getElem _ _ hi, List.getD_eq_getElem _ _ hj] at hrow
  rw [List.getD_eq_getElem _ _ (show i < pi.length by omega),
    List.getD_eq_getElem _ _ (show j < pi.length by omega)] at hpi
  rw [hrow, hpi]

theorem e_step_pair (pi : Vec) (A : Mat) (i j : ℕ) (hi : i < A.length)
    (hj : j < A.length) (hlen : pi.length = A.length)
    (hrow : A.getD i [] = A.getD j []) (hpi : pi.getD i 0 = pi.getD j 0) :
    (e_step pi A).getD i [] = (e_step pi A).getD j [] := by
  rw [e_step_getD pi A i hi (by omega), e_step_getD pi A j hj (by omega),
    weightedM_pair pi A i j hi hj hlen hrow hpi]

theorem em_update_pair (A : Mat) (alpha : Vec) (i j : ℕ) (hi : i < A.length)
    (hj : j < A.length) (hlen : alpha.length = A.length)
    (hrow : A.getD i [] = A.getD j []) (hij : alpha.getD i 0 = alpha.getD j 0) :
    (em_update alpha A).getD i 0 = (em_update alpha A).getD j 0 := by
  unfold em_update
  have hP : i < (e_step alpha A).length := by rw [e_step_length]; omega
  have hP' : j < (e_step alpha A).length := by rw [e_step_length]; omega
  exact m_step_pair _ _ i j hP hP' (e_step_pair alpha A i j hi hj hlen hrow hij)

/-! ## Loop invariants -/

theorem run_em_loop_inv (A : Mat) (tol : ℚ) (Q : Vec → Prop)
    (hstep : ∀ v, Q v → Q (em_update v A)) :
    ∀ fuel alpha done, Q alpha → Q (run_em_loop A tol alpha done fuel).1 := by
  intro fuel
  induction fuel with
  | zero =>
    intro alpha done h
    simpa [run_em_loop] using h
  | succ n ih =>
    intro alpha done h
    simp only [run_em_loop]
    split
    · exact hstep _ h
    · exact ih _ _ (hstep _ h)

theorem run_em_loop_result (A : Mat) (tol : ℚ) (Q : Vec → Prop)
    (hstep : ∀ v, Q v → Q (em_update v A)) :
    ∀ fuel alpha done, Q alpha → 1 ≤ fuel →
      ∃ beta, Q beta ∧ (run_em_loop A tol alpha done fuel).1 = em_update beta A := by
  intro fuel
  induction fuel with
  | zero =>
    intro alpha done _ h
    exact absurd h (by omega)
  | succ n ih =>
    intro alpha done hQ _
    simp only [run_em_loop]
    split
    · exact ⟨alpha, hQ, rfl⟩
    · cases n with
      | zero => exact ⟨alpha, hQ, by simp [run_em_loop]⟩
      | succ m => exact ih _ _ (hstep _ hQ) (by omega)

theorem em_update_simplex (A : Mat) (alpha : Vec) (hA : MatNonneg A) (hT : A ≠ [])
    (halpha : VecNonneg alpha) (hlen : alpha.length = A.length) :
    VecNonneg (em_update alpha A) ∧ (em_update alpha A).sum = 1 := by
  refine ⟨m_step_nonneg _ _ (e_step_nonneg alpha A hA halpha), m_step_sum _ _ ?_⟩
  apply List.length_pos.mp
  rw [e_step_length]
  have := List.length_pos.mpr hT
  omega

/-! ## Lemmas for the exception model -/

theorem m_step_exc_ok (posterior A : Mat) (h : posterior ≠ []) :
    m_step_exc posterior A = .ok (m_step posterior A) := by
  unfold m_step_exc
  split
  · rfl
  · rw [if_neg (by simpa using h)]

theorem run_em_loop_exc_ok (A : Mat) (tol : ℚ) (hT : A ≠ []) :
    ∀ fuel alpha done, alpha.length = A.length →
      run_em_loop_exc A tol alpha done fuel =
        .ok (run_em_loop A tol alpha done fuel) := by
  intro fuel
  induction fuel with
  | zero => intro alpha done _; rfl
  | succ n ih =>
    intro alpha done hlen
    have hTpos : 0 < A.length := List.length_pos.mpr hT
    have hpost : (e_step alpha A).length = A.length := by rw [e_step_length]; omega
    have hupd : (em_update alpha A).length = A.length := em_update_length A alpha hlen
    have h1 : e_step_exc alpha A = .ok (e_step alpha A) := by
      rw [e_step_exc, if_pos hlen]
    have h2 : m_step_exc (e_step alpha A) A = .ok (em_update alpha A) :=
      m_step_exc_ok _ _ (List.length_pos.mp (by omega))
    have h3 : sub_exc (em_update alpha A) alpha =
        .ok (((em_update alpha A).zip alpha).map (fun p => p.1 - p.2)) := by
      rw [sub_exc, if_pos (by omega)]
    have h4 : max_abs_exc (((em_update alpha A).zip alpha).map (fun p => p.1 - p.2)) =
        .ok (maxAbsDiff (em_update alpha A) alpha) := by
      rw [max_abs_exc, if_neg (by simp only [List.length_map, List.length_zip]; omega),
        List.map_map]
      rfl
    simp only [run_em_loop_exc, run_em_loop, h1, h2, h3, h4, bind, Except.bind]
    split
    · rfl
    · exact ih _ _ hupd

/-! ## Lemmas for the heap model -/

theorem Heap.grows_refl (h : Heap) : Heap.Grows h h :=
  ⟨le_refl _, fun _ _ => rfl⟩

theorem Heap.grows_trans {h1 h2 h3 : Heap} (g21 : Heap.Grows h2 h1)
    (g32 : Heap.Grows h3 h2) : Heap.Grows h3 h1 :=
  ⟨le_trans g21.1 g32.1,
   fun l hl => (g32.2 l (lt_of_lt_of_le hl g21.1)).trans (g21.2 l hl)⟩

theorem Heap.alloc_grows (h : Heap) (v : PyVal) : Heap.Grows (h.alloc v).1 h := by
  refine ⟨by simp [Heap.alloc], fun l hl => ?_⟩
  unfold Heap.read Heap.alloc
  rw [List.find?_cons_of_neg]
  simp
  omega

theorem e_step_heap_grows (h : Heap) (l_pi l_A : ℕ) :
    Heap.Grows (e_step_heap h l_pi l_A).1 h := by
  unfold e_step_heap
  split
  · exact Heap.grows_trans (Heap.grows_trans (Heap.grows_trans (Heap.grows_trans
      (Heap.alloc_grows _ _) (Heap.alloc_grows _ _)) (Heap.alloc_grows _ _))
      (Heap.alloc_grows _ _)) (Heap.alloc_grows _ _)
  · exact Heap.grows_refl h

theorem m_step_heap_grows (h : Heap) (l_post l_A : ℕ) :
    Heap.Grows (m_step_heap h l_post l_A).1 h := by
  unfold m_step_heap
  split
  · exact Heap.grows_trans (Heap.alloc_grows _ _) (Heap.alloc_grows _ _)
  · exact Heap.grows_refl h

theorem run_em_loop_heap_grows (l_A : ℕ) (tol : ℚ) :
    ∀ fuel h l_alpha done,
      Heap.Grows (run_em_loop_heap l_A tol h l_alpha done fuel).1 h := by
  intro fuel
  induction fuel with
  | zero => intro h l_alpha done; exact Heap.grows_refl h
  | succ n ih =>
    intro h l_alpha done
    simp only [run_em_loop_heap]
    split
    next h1 l_post heq1 =>
      have g1 : Heap.Grows h1 h := by
        have g := e_step_heap_grows h l_alpha l_A
        rw [heq1] at g
        exact g
      split
      next h2 l_upd heq2 =>
        have g2 : Heap.Grows h2 h := by
          have g := m_step_heap_grows h1 l_post l_A
          rw [heq2] at g
          exact Heap.grows_trans g1 g
        split
        next updated alpha hra hrb =>
          have g4 : ∀ v3 v4 : PyVal,
              Heap.Grows (((h2.alloc v3).1.alloc v4).1) h :=
            fun v3 v4 => Heap.grows_trans g2 (Heap.grows_trans
              (Heap.alloc_grows _ _) (Heap.alloc_grows _ _))
          split
          · exact g4 _ _
          · exact Heap.grows_trans (g4 _ _) (ih _ _ _)
        next hra hrb =>
          exact g2
      next h2 heq2 =>
        have g := m_step_heap_grows h1 l_post l_A
        rw [heq2] at g
        exact Heap.grows_trans g1 g
    next h1 heq1 =>
      have g := e_step_heap_grows h l_alpha l_A
      rw [heq1] at g
      exact g

example : e_step [1/2, 1/2] [[1, 0], [1, 1]] = [[1/2, 0], [1/2, 1]] := by
  norm_num [e_step, weightedM, colSum, List.range_succ]

example : m_step [[1/2, 0], [1/2, 1]] [[1, 0], [1, 1]] = [1/4, 3/4] := by
  norm_num [m_step]

example : run_em_algorithm [[1, 1], [1, 1]] (some [1, 0]) (1/1000) 10 = ([1, 0], 1) := by
  have h1 : em_update [1, 0] [[1, 1], [1, 1]] = [1, 0] := by
    norm_num [em_update, e_step, m_step, weightedM, colSum, List.range_succ]
  rw [run_em_algorithm, init_abundance, run_em_loop_eq]
  norm_num [h1, maxAbsDiff]

example : run_em_algorithm [[1, 1], [1, 1]] none (1/1000) 10 = ([1/2, 1/2], 1) := by
  have h0 : init_abundance [[1, 1], [1, 1]] none = [1/2, 1/2] := by
    norm_num [init_abundance, List.replicate]
  have h1 : em_update [1/2, 1/2] [[1, 1], [1, 1]] = [1/2, 1/2] := by
    norm_num [em_update, e_step, m_step, weightedM, colSum, List.range_succ]
  rw [run_em_algorithm, h0, run_em_loop_eq]
  norm_num [h1, maxAbsDiff]


theorem run_em_algorithm_heap_grows (h : Heap) (l_A : ℕ) (l_init : Option ℕ)
    (tol : ℚ) (max_iters : ℕ) :
    Heap.Grows (run_em_algorithm_heap h l_A l_init tol max_iters).1 h := by
  unfold run_em_algorithm_heap
  split <;> split <;>
    first
      | exact Heap.grows_trans (Heap.alloc_grows _ _)
          (run_em_loop_heap_grows _ _ _ _ _ _)
      | exact Heap.grows_refl _

/-! ## Helper: well-shaped inputs never raise -/

theorem run_em_exc_eq (A : Mat) (initial : Option Vec) (tol : ℚ) (max_iters : ℕ)
    (hT : A ≠ []) (hinit : (init_abundance A initial).length = A.length) :
    run_em_algorithm_exc A initial tol max_iters =
      .ok (run_em_algorithm A initial tol max_iters) := by
  cases initial with
  | none =>
    rw [run_em_algorithm_exc, if_neg (by simpa using hT)]
    exact run_em_loop_exc_ok A tol hT max_iters _ 0 hinit
  | some v => exact run_em_loop_exc_ok A tol hT max_iters v 0 hinit

/-! ## The claims -/

/-- C1 (counterexample): the matrix `[[-1]]` has a negative entry — a
malformed input that the claim says must be rejected with a descriptive
error before any EM computation — yet `run_em_algorithm` silently computes
and returns the result `([1], 1)`, raising no error at all. -/
theorem run_em_no_validation_cex :
    ((-1 : ℚ) < 0) ∧
      run_em_algorithm_exc [[-1]] none (1/10000) 10000 = .ok ([1], 1) := by
  have hupd : em_update [1] [[-1]] = [1] := by
    norm_num [em_update, e_step, m_step, weightedM, colSum, List.range_succ]
  have h0 : init_abundance [[-1]] none = [1] := by
    norm_num [init_abundance, List.replicate]
  have hrun : run_em_algorithm [[-1]] none (1/10000) 10000 = ([1], 1) := by
    rw [run_em_algorithm, h0, run_em_loop_eq]
    norm_num [hupd, maxAbsDiff]
  rw [run_em_exc_eq [[-1]] none (1/10000) 10000 (by simp) (by simp [init_abundance]), hrun]
  exact ⟨by norm_num, rfl⟩

/-- C1 (amended): `run_em_algorithm` performs no input validation and never
fails fast.  For every assignment matrix with at least one row — negative
entries included, since no non-negativity hypothesis appears below — and
every initialization of matching length (or the default), it computes and
returns a result with no error; the malformed-input errors that do occur
(broadcast mismatch, zero-row division) are raised by numpy mid-computation,
as modelled by `run_em_algorithm_exc`. -/
theorem run_em_no_validation (A : Mat) (initial : Option Vec) (tol : ℚ)
    (max_iters : ℕ) (hT : 1 ≤ A.length)
    (hinit : (init_abundance A initial).length = A.length) :
    run_em_algorithm_exc A initial tol max_iters =
      .ok (run_em_algorithm A initial tol max_iters) :=
  run_em_exc_eq A initial tol max_iters (List.length_pos.mp hT) hinit

theorem run_em_no_validation_witness :
    1 ≤ ([[(-3 : ℚ), 1], [2, -5]] : Mat).length ∧
      run_em_algorithm_exc [[(-3 : ℚ), 1], [2, -5]] (some [1, 2]) (1/10) 7 =
        .ok (run_em_algorithm [[(-3 : ℚ), 1], [2, -5]] (some [1, 2]) (1/10) 7) :=
  ⟨by decide, run_em_no_validation [[(-3 : ℚ), 1], [2, -5]] (some [1, 2]) (1/10) 7
    (by decide) (by simp [init_abundance])⟩

/-- C2: for every abundance vector `pi` of length `T` and every `T×R`
assignment matrix, each column of `e_step pi A` either sums to exactly 1 or
is identically zero; in particular a column `r` whose total weighted
assignment `Σ_t A[t,r] * pi[t]` (the column sum of `weightedM`) is zero is
zero-filled rather than producing a division error. -/
theorem e_step_column_simplex (pi : Vec) (A : Mat) (R r : ℕ) (hT : A ≠ [])
    (hrect : Rectangular A R) (hlen : pi.length = A.length) (hr : r < R) :
    (colSum (e_step pi A) r = 1 ∨ ∀ row ∈ e_step pi A, row.getD r 0 = 0) ∧
      (colSum (weightedM pi A) r = 0 → ∀ row ∈ e_step pi A, row.getD r 0 = 0) := by
  have hR : (A.headD []).length = R := by
    cases A with
    | nil => exact absurd rfl hT
    | cons a l => exact hrect a (List.mem_cons_self a l)
  have hr' : r < (A.headD []).length := by omega
  by_cases hs : colSum (weightedM pi A) r = 0
  · exact ⟨Or.inr (e_step_col_zero pi A r hs), fun _ => e_step_col_zero pi A r hs⟩
  · refine ⟨Or.inl ?_, fun h0 => absurd h0 hs⟩
    rw [colSum_e_step pi A r hr', if_neg hs]

theorem e_step_column_simplex_witness :
    Rectangular [[1, 0], [0, 0]] 2 ∧
      ((colSum (e_step [1/2, 1/2] [[1, 0], [0, 0]]) 0 = 1 ∨
          ∀ row ∈ e_step [1/2, 1/2] [[1, 0], [0, 0]], row.getD 0 0 = 0) ∧
        (colSum (weightedM [1/2, 1/2] [[1, 0], [0, 0]]) 0 = 0 →
          ∀ row ∈ e_step [1/2, 1/2] [[1, 0], [0, 0]], row.getD 0 0 = 0)) :=
  ⟨by decide, e_step_column_simplex [1/2, 1/2] [[1, 0], [0, 0]] 2 0
    (by decide) (by decide) (by decide) (by decide)⟩

/-- C3: for every `T×R` posterior matrix `P` with `T ≥ 1` (a posterior
matrix has non-negative entries), `m_step P A` has length `T`, is
non-negative and sums to exactly 1; when the grand total of `P` is positive
entry `t` equals the row sum at `t` divided by the total, and when the
grand total is zero the result is the uniform vector `1/T`. -/
theorem m_step_simplex (P A : Mat) (R : ℕ) (hT : 1 ≤ P.length)
    (hrect : Rectangular P R) (hP : MatNonneg P) :
    (m_step P A).length = P.length ∧ VecNonneg (m_step P A) ∧
      (m_step P A).sum = 1 ∧
      (0 < (P.map List.sum).sum → ∀ t, t < P.length →
        (m_step P A).getD t 0 = (P.getD t []).sum / (P.map List.sum).sum) ∧
      ((P.map List.sum).sum = 0 →
        m_step P A = List.replicate P.length ((1 : ℚ) / (P.length : ℚ))) := by
  refine ⟨m_step_length P A, m_step_nonneg P A hP,
    m_step_sum P A (List.length_pos.mp hT), ?_, ?_⟩
  · intro htot t ht
    have hbr : m_step P A = (P.map List.sum).map
        (fun c => c / (P.map List.sum).sum) := by
      simp only [m_step]
      rw [if_pos htot]
    rw [hbr, List.getD_eq_getElem _ _ (by simpa using ht),
      List.getD_eq_getElem _ _ ht]
    simp
  · intro h0
    simp only [m_step]
    rw [if_neg (by rw [h0]; exact lt_irrefl 0)]

theorem m_step_simplex_witness :
    MatNonneg [[1, 0], [0, 1]] ∧
      ((m_step [[1, 0], [0, 1]] [[1, 1], [1, 1]]).length = 2 ∧
        VecNonneg (m_step [[1, 0], [0, 1]] [[1, 1], [1, 1]]) ∧
        (m_step [[1, 0], [0, 1]] [[1, 1], [1, 1]]).sum = 1 ∧
        (0 < (([[1, 0], [0, 1]] : Mat).map List.sum).sum → ∀ t, t < 2 →
          (m_step [[1, 0], [0, 1]] [[1, 1], [1, 1]]).getD t 0 =
            (([[1, 0], [0, 1]] : Mat).getD t []).sum /
              (([[1, 0], [0, 1]] : Mat).map List.sum).sum) ∧
        ((([[1, 0], [0, 1]] : Mat).map List.sum).sum = 0 →
          m_step [[1, 0], [0, 1]] [[1, 1], [1, 1]] =
            List.replicate 2 ((1 : ℚ) / (2 : ℚ)))) := by
  have h := m_step_simplex [[1, 0], [0, 1]] [[1, 1], [1, 1]] 2
    (by decide) (by decide) (by decide)
  exact ⟨by decide, h⟩

/-- C4: for every valid assignment matrix (`T ≥ 1`, rectangular,
non-negative entries) and every iteration budget of at least 1, the vector
returned by `run_em_algorithm` with the default uniform initialization is
non-negative and sums to exactly 1 — whether the loop converged or
exhausted its budget. -/
theorem run_em_simplex (A : Mat) (R : ℕ) (tol : ℚ) (max_iters : ℕ)
    (hT : 1 ≤ A.length) (hrect : Rectangular A R) (hA : MatNonneg A)
    (hit : 1 ≤ max_iters) :
    VecNonneg (run_em_algorithm A none tol max_iters).1 ∧
      (run_em_algorithm A none tol max_iters).1.sum = 1 := by
  have hTne : A ≠ [] := List.length_pos.mp hT
  have hstep : ∀ v, (VecNonneg v ∧ v.length = A.length) →
      (VecNonneg (em_update v A) ∧ (em_update v A).length = A.length) := by
    intro v hv
    exact ⟨(em_update_simplex A v hA hTne hv.1 hv.2).1, em_update_length A v hv.2⟩
  have hinit : VecNonneg (init_abundance A none) ∧
      (init_abundance A none).length = A.length := by
    constructor
    · intro x hx
      simp only [init_abundance, List.mem_replicate] at hx
      rw [hx.2]
      positivity
    · simp [init_abundance]
  obtain ⟨beta, hbeta, hres⟩ := run_em_loop_result A tol
    (fun v => VecNonneg v ∧ v.length = A.length) hstep max_iters
    (init_abundance A none) 0 hinit hit
  rw [run_em_algorithm, hres]
  exact em_update_simplex A beta hA hTne hbeta.1 hbeta.2

theorem run_em_simplex_witness :
    MatNonneg [[1, 0, 1], [0, 1, 1]] ∧
      (VecNonneg (run_em_algorithm [[1, 0, 1], [0, 1, 1]] none (1/100) 3).1 ∧
        (run_em_algorithm [[1, 0, 1], [0, 1, 1]] none (1/100) 3).1.sum = 1) :=
  ⟨by decide, run_em_simplex [[1, 0, 1], [0, 1, 1]] 3 (1/100) 3
    (by decide) (by decide) (by decide) (by decide)⟩

/-- C5 (counterexample): rows 0 and 1 of `[[1, 1], [1, 1]]` are identical,
yet starting from the initialization `[1, 0]` the algorithm converges (in
one iteration) to `[1, 0]` — not to an equal split — so convergence to
equal shares does NOT hold regardless of the initialization supplied. -/
theorem run_em_equal_rows_cex :
    ([[1, 1], [1, 1]] : Mat).getD 0 [] = ([[1, 1], [1, 1]] : Mat).getD 1 [] ∧
      run_em_algorithm [[1, 1], [1, 1]] (some [1, 0]) (1/1000) 10 = ([1, 0], 1) ∧
      (run_em_algorithm [[1, 1], [1, 1]] (some [1, 0]) (1/1000) 10).1.getD 0 0 ≠
        (run_em_algorithm [[1, 1], [1, 1]] (some [1, 0]) (1/1000) 10).1.getD 1 0 := by
  have h1 : em_update [1, 0] [[1, 1], [1, 1]] = [1, 0] := by
    norm_num [em_update, e_step, m_step, weightedM, colSum, List.range_succ]
  have hrun : run_em_algorithm [[1, 1], [1, 1]] (some [1, 0]) (1/1000) 10 =
      ([1, 0], 1) := by
    rw [run_em_algorithm, init_abundance, run_em_loop_eq]
    norm_num [h1, maxAbsDiff]
  refine ⟨rfl, hrun, ?_⟩
  rw [hrun]
  norm_num

/-- C5 (amended): for every assignment matrix in which transcripts `i` and
`j` have identical rows, `run_em_algorithm` returns an abundance vector
giving the two transcripts equal shares for every initialization that
assigns them equal initial values — in particular for the default uniform
initialization.  (The unamended "regardless of the initialization" is
false: one EM iteration preserves the ratio between identical rows, see the
counterexample.) -/
theorem run_em_equal_rows (A : Mat) (initial : Option Vec) (tol : ℚ)
    (max_iters : ℕ) (i j : ℕ) (hi : i < A.length) (hj : j < A.length)
    (hrow : A.getD i [] = A.getD j [])
    (hlen : (init_abundance A initial).length = A.length)
    (hinit : (init_abundance A initial).getD i 0 =
      (init_abundance A initial).getD j 0) :
    (run_em_algorithm A initial tol max_iters).1.getD i 0 =
      (run_em_algorithm A initial tol max_iters).1.getD j 0 := by
  have hstep : ∀ v, (v.length = A.length ∧ v.getD i 0 = v.getD j 0) →
      ((em_update v A).length = A.length ∧
        (em_update v A).getD i 0 = (em_update v A).getD j 0) := by
    intro v hv
    exact ⟨em_update_length A v hv.1, em_update_pair A v i j hi hj hv.1 hrow hv.2⟩
  have h := run_em_loop_inv A tol
    (fun v => v.length = A.length ∧ v.getD i 0 = v.getD j 0) hstep max_iters
    (init_abundance A initial) 0 ⟨hlen, hinit⟩
  rw [run_em_algorithm]
  exact h.2

theorem run_em_equal_rows_witness :
    ([[1, 1], [1, 1]] : Mat).getD 0 [] = ([[1, 1], [1, 1]] : Mat).getD 1 [] ∧
      (run_em_algorithm [[1, 1], [1, 1]] none (1/1000) 10).1.getD 0 0 =
        (run_em_algorithm [[1, 1], [1, 1]] none (1/1000) 10).1.getD 1 0 :=
  ⟨rfl, run_em_equal_rows [[1, 1], [1, 1]] none (1/1000) 10 0 1
    (by decide) (by decide) rfl (by simp [init_abundance])
    (by simp [init_abundance])⟩

/-- C6: for every assignment matrix, every `tol > 0`, every iteration
budget of at least 1, and every abundance vector `pi` that is an exact
fixed point of one EM iteration (`m_step (e_step pi A) A = pi`),
`run_em_algorithm` started from `pi` returns `(pi, 1)`: it converges in
exactly one iteration. -/
theorem run_em_fixed_point (A : Mat) (pi : Vec) (tol : ℚ) (max_iters : ℕ)
    (htol : 0 < tol) (hit : 1 ≤ max_iters)
    (hfix : m_step (e_step pi A) A = pi) :
    run_em_algorithm A (some pi) tol max_iters = (pi, 1) := by
  obtain ⟨n, rfl⟩ : ∃ n, max_iters = n + 1 := ⟨max_iters - 1, by omega⟩
  rw [run_em_algorithm, init_abundance]
  simp only [run_em_loop]
  rw [show em_update pi A = pi from hfix, maxAbsDiff_self, if_pos htol]

theorem run_em_fixed_point_witness :
    m_step (e_step [1] [[1]]) [[1]] = [1] ∧
      run_em_algorithm [[1]] (some [1]) (1/2) 9 = ([1], 1) := by
  have hfix : m_step (e_step [1] [[1]]) [[1]] = [1] := by
    norm_num [e_step, m_step, weightedM, colSum, List.range_succ]
  exact ⟨hfix, run_em_fixed_point [[1]] [1] (1/2) 9 (by norm_num) (by omega) hfix⟩

/-- C7: for every multi-transcript assignment matrix (`T ≥ 2`) and every
length-matching (or default) initialization, `run_em_algorithm` with
`max_iters = 1` returns iteration count 1 together with the one-iteration
EM estimate, and — as the exception model shows — returns normally rather
than raising: non-convergence is only a printed warning. -/
theorem run_em_budget_one (A : Mat) (initial : Option Vec) (tol : ℚ)
    (hT : 2 ≤ A.length)
    (hinit : (init_abundance A initial).length = A.length) :
    (run_em_algorithm A initial tol 1).2 = 1 ∧
      (run_em_algorithm A initial tol 1).1 =
        em_update (init_abundance A initial) A ∧
      run_em_algorithm_exc A initial tol 1 =
        .ok (run_em_algorithm A initial tol 1) := by
  refine ⟨?_, ?_, run_em_exc_eq A initial tol 1
    (List.length_pos.mp (by omega)) hinit⟩
  · rw [run_em_algorithm]
    simp only [run_em_loop]
    split <;> rfl
  · rw [run_em_algorithm]
    simp only [run_em_loop]
    split
    · rfl
    · rfl

theorem run_em_budget_one_witness :
    2 ≤ ([[1, 0], [0, 1], [1, 1]] : Mat).length ∧
      ((run_em_algorithm [[1, 0], [0, 1], [1, 1]] none (1/100) 1).2 = 1 ∧
        (run_em_algorithm [[1, 0], [0, 1], [1, 1]] none (1/100) 1).1 =
          em_update (init_abundance [[1, 0], [0, 1], [1, 1]] none)
            [[1, 0], [0, 1], [1, 1]] ∧
        run_em_algorithm_exc [[1, 0], [0, 1], [1, 1]] none (1/100) 1 =
          .ok (run_em_algorithm [[1, 0], [0, 1], [1, 1]] none (1/100) 1)) :=
  ⟨by decide, run_em_budget_one [[1, 0], [0, 1], [1, 1]] none (1/100)
    (by decide) (by simp [init_abundance])⟩

/-- C8: `run_em_algorithm` is deterministic — two invocations with equal
assignment matrices, equal (or both-absent) initial vectors, equal
tolerances and equal iteration budgets return identical
(abundance vector, iteration count) pairs.  The embedding is a pure
function of its four arguments: there is no hidden randomness and no
cross-call state for it to depend on. -/
theorem run_em_deterministic (A1 A2 : Mat) (init1 init2 : Option Vec)
    (tol1 tol2 : ℚ) (n1 n2 : ℕ)
    (hA : A1 = A2) (hi : init1 = init2) (ht : tol1 = tol2) (hn : n1 = n2) :
    run_em_algorithm A1 init1 tol1 n1 = run_em_algorithm A2 init2 tol2 n2 := by
  rw [hA, hi, ht, hn]

theorem run_em_deterministic_witness :
    ([[1, 1, 0]] : Mat) = [[1, 1, 0]] ∧
      run_em_algorithm [[1, 1, 0]] none (1/100) 5 =
        run_em_algorithm [[1, 1, 0]] none (1/100) 5 :=
  ⟨rfl, run_em_deterministic [[1, 1, 0]] [[1, 1, 0]] none none (1/100) (1/100)
    5 5 rfl rfl rfl rfl⟩

/-- C9 (implicit): with `max_iters = 0` the loop body never runs:
`run_em_algorithm` returns the initialization itself with iteration count
0 — the caller-supplied vector as-is (unnormalized, whatever its sum), or
the uniform vector when absent. -/
theorem run_em_zero_iters :
    (∀ (A : Mat) (pi : Vec) (tol : ℚ),
        run_em_algorithm A (some pi) tol 0 = (pi, 0)) ∧
      (∀ (A : Mat) (tol : ℚ),
        run_em_algorithm A none tol 0 =
          (List.replicate A.length ((1 : ℚ) / (A.length : ℚ)), 0)) :=
  ⟨fun _ _ _ => rfl, fun _ _ => rfl⟩

/-- C10 (implicit): none of `e_step`, `m_step`, `run_em_algorithm` mutates
its arguments.  In the heap model — where every numpy operation of the
source allocates a fresh array and `run` copies the supplied initial
vector — every location that existed before the call (in particular those
of the assignment matrix, the abundance/posterior inputs, and any
caller-supplied initial vector) reads the same value afterwards. -/
theorem run_em_no_mutation (h : Heap) (l_A l_pi l_post : ℕ)
    (l_init : Option ℕ) (tol : ℚ) (max_iters : ℕ) (l : ℕ) (hl : l < h.next) :
    (e_step_heap h l_pi l_A).1.read l = h.read l ∧
      (m_step_heap h l_post l_A).1.read l = h.read l ∧
      (run_em_algorithm_heap h l_A l_init tol max_iters).1.read l = h.read l := by
  refine ⟨(e_step_heap_grows h l_pi l_A).2 l hl,
    (m_step_heap_grows h l_post l_A).2 l hl,
    (run_em_algorithm_heap_grows h l_A l_init tol max_iters).2 l hl⟩

theorem run_em_no_mutation_witness :
    0 < (Heap.mk [(0, PyVal.mat [[1]]), (1, PyVal.vec [1])] 2).next ∧
      ((e_step_heap (Heap.mk [(0, PyVal.mat [[1]]), (1, PyVal.vec [1])] 2)
          1 0).1.read 0 =
        (Heap.mk [(0, PyVal.mat [[1]]), (1, PyVal.vec [1])] 2).read 0 ∧
      (m_step_heap (Heap.mk [(0, PyVal.mat [[1]]), (1, PyVal.vec [1])] 2)
          1 0).1.read 0 =
        (Heap.mk [(0, PyVal.mat [[1]]), (1, PyVal.vec [1])] 2).read 0 ∧
      (run_em_algorithm_heap (Heap.mk [(0, PyVal.mat [[1]]), (1, PyVal.vec [1])] 2)
          0 (some 1) (1/2) 1).1.read 0 =
        (Heap.mk [(0, PyVal.mat [[1]]), (1, PyVal.vec [1])] 2).read 0) :=
  ⟨by decide, run_em_no_mutation
    (Heap.mk [(0, PyVal.mat [[1]]), (1, PyVal.vec [1])] 2) 0 1 1 (some 1)
    (1/2) 1 0 (by decide)⟩

end KallistoEM
